import Mathlib

/-!
Shallow embedding of `src/msg_split.py` (HTML fragment splitter).

The repository's only source file defines:
  * `HTMLFragmentParser`, a subclass of the standard-library `html.parser.HTMLParser`
    that tracks currently open tags in a list `open_tags` (append on start tag,
    remove-first-matching-from-the-top on end tag);
  * `rebuild_open_tags` / `rebuild_close_tags`, which render the open-tag list as
    reopening and closing markup;
  * `split_message(source, max_len)`, a generator that tokenizes `source` with the
    regular expression `(</?\w+[^>]*>|[^<]+)`, accumulates tokens into a current
    fragment, and cuts a fragment whenever
    `current_length + part_len + added_tags_length > max_len`.

The embedding models Python strings as `String`/`List Char`, the arbitrary-precision
`max_len` as `Int`, and the generator as the list of yielded fragments.  The pieces of
the standard-library `HTMLParser` that the source relies on (tokenizer dispatch,
tag-name and attribute extraction, self-closing `<.../>` dispatch via
`handle_startendtag`, the `script`/`style` CDATA modes, and the fact that
`HTMLParser.reset` clears only the lexing state and never the subclass attribute
`open_tags`) are modelled explicitly below, restricted to whole tokens as produced by
the tokenizer; character-reference unescaping inside attribute values is not modelled.
-/

namespace MsgSplit

/-- The single-quote character, `'`. -/
def squote : Char := Char.ofNat 39

/-- Attributes as parsed by the standard-library parser: ordered `(name, value)`
pairs, where a valueless attribute carries `none` (Python's `None`). -/
abbrev Attrs := List (String × Option String)

/-- One entry of `HTMLFragmentParser.open_tags`: tag name and attributes. -/
abbrev TagEntry := String × Attrs

/-! ### Tokenizer: `re.finditer(r"(</?\w+[^>]*>|[^<]+)", source)`

A match is either a tag token (`<`, optional `/`, at least one word character,
then everything up to and including the first `>`), or a text token (a maximal
run of characters other than `<`).  Unmatched characters (a `<` not followed by
an admissible tag) are skipped, exactly as `finditer` advances past positions
where no match starts.  Structural recursion uses the remaining length as fuel;
every step consumes at least one character, so `tokenizeF l.length l` runs the
scan to completion. -/

/-- Python's `\w` on ASCII input: letters, digits, underscore. -/
def wordChar (c : Char) : Bool := c.isAlpha || c.isDigit || c = '_'

/-- Match `\w+[^>]*>` at the head of `cs`: at least one word character, then all
characters up to and including the first `>`.  Returns the matched body and the
rest of the input, or `none` when the head is not a word character or no `>`
follows. -/
def tagBody (cs : List Char) : Option (List Char × List Char) :=
  match cs with
  | [] => none
  | d :: ds =>
    if wordChar d then
      match ds.dropWhile (fun x => x != '>') with
      | [] => none
      | _ :: gs => some (d :: (ds.takeWhile (fun x => x != '>') ++ ['>']), gs)
    else none

/-- One `finditer` scan with explicit fuel. -/
def tokenizeF : Nat → List Char → List (List Char)
  | 0, _ => []
  | _ + 1, [] => []
  | f + 1, c :: cs =>
    if c = '<' then
      match cs with
      | '/' :: ds =>
        match tagBody ds with
        | some (body, rest) => ('<' :: '/' :: body) :: tokenizeF f rest
        | none => tokenizeF f cs
      | _ =>
        match tagBody cs with
        | some (body, rest) => ('<' :: body) :: tokenizeF f rest
        | none => tokenizeF f cs
    else
      ((c :: cs).takeWhile (fun x => x != '<'))
        :: tokenizeF f ((c :: cs).dropWhile (fun x => x != '<'))

/-- All regex matches of `(</?\w+[^>]*>|[^<]+)` over `l`, in order. -/
def tokenize (l : List Char) : List (List Char) := tokenizeF l.length l

/-- The token stream of a source string. -/
def tokens (s : String) : List String := (tokenize s.data).map (fun l => String.mk l)

/-! ### The tag tracker: `HTMLFragmentParser` over the standard-library parser -/

/-- Lowercase a name, as the standard parser lowercases tag and attribute names. -/
def lowerName (l : List Char) : String := String.mk (l.map Char.toLower)

/-- A character admissible inside a tag name (`tagfind_tolerant`:
`[a-zA-Z][^\t\n\r\f />\x00]*`). -/
def tagNameChar (c : Char) : Bool := !c.isWhitespace && c != '/' && c != '>'

/-- Extract the tag name at the head of the characters following `<` or `</`.
The standard parser recognises a tag only when the first character is a letter
(`starttagopen = <[a-zA-Z]`, `tagfind_tolerant`); otherwise the token is data. -/
def parseTagName (l : List Char) : Option String :=
  match l with
  | c :: _ => if c.isAlpha then some (lowerName (l.takeWhile tagNameChar)) else none
  | [] => none

/-- The characters following the tag name. -/
def afterName (l : List Char) : List Char := l.dropWhile tagNameChar

/-- Characters skipped between attributes. -/
def isSpaceOrSlash (c : Char) : Bool := c.isWhitespace || c = '/'

/-- A character admissible inside an attribute name. -/
def attrNameChar (c : Char) : Bool :=
  !c.isWhitespace && c != '/' && c != '=' && c != '>'

/-- Attribute scan modelling the `attrfind_tolerant` loop of `parse_starttag`:
skip whitespace and slashes; read an attribute name; if `=` (one or more)
follows, read a single- or double-quoted or bare value, else record `none`.
Names are lowercased; values keep their source spelling (unescaping of
character references is not modelled).  Fuel-based: every step consumes at
least one character. -/
def parseAttrsF : Nat → List Char → Attrs
  | 0, _ => []
  | _ + 1, [] => []
  | f + 1, l =>
    let l1 := l.dropWhile isSpaceOrSlash
    match l1 with
    | [] => []
    | c :: cs =>
      if c = '>' then []
      else
        match l1.takeWhile attrNameChar with
        | [] => parseAttrsF f cs
        | nm =>
          let r1 := (l1.dropWhile attrNameChar).dropWhile (fun x => x.isWhitespace)
          match r1 with
          | '=' :: rest =>
            let rest2 := rest.dropWhile (fun x => x.isWhitespace || x = '=')
            match rest2 with
            | '"' :: vs =>
              (lowerName nm, some (String.mk (vs.takeWhile (fun x => x != '"'))))
                :: parseAttrsF f ((vs.dropWhile (fun x => x != '"')).drop 1)
            | v0 :: vs =>
              if v0 = squote then
                (lowerName nm, some (String.mk (vs.takeWhile (fun x => x != squote))))
                  :: parseAttrsF f ((vs.dropWhile (fun x => x != squote)).drop 1)
              else
                (lowerName nm,
                  some (String.mk (rest2.takeWhile (fun x => !x.isWhitespace && x != '>'))))
                  :: parseAttrsF f (rest2.dropWhile (fun x => !x.isWhitespace && x != '>'))
            | [] => [(lowerName nm, some "")]
          | _ => (lowerName nm, none) :: parseAttrsF f r1

/-- Attributes of a start tag, from the characters after the tag name. -/
def parseAttrs (l : List Char) : Attrs := parseAttrsF l.length l

/-- `HTMLFragmentParser.handle_starttag`: append the entry to `open_tags`.
The stack is modelled most-recently-opened-first (the reverse of the Python
list, which appends at the end and scans from the end). -/
def handle_starttag (stack : List TagEntry) (tag : String) (attrs : Attrs) :
    List TagEntry :=
  (tag, attrs) :: stack

/-- `HTMLFragmentParser.handle_endtag`: scan from the most recently pushed entry
and remove exactly the first entry whose tag name matches; leave the stack
unchanged when no entry matches. -/
def handle_endtag (stack : List TagEntry) (tag : String) : List TagEntry :=
  match stack with
  | [] => []
  | e :: rest => if e.1 = tag then rest else e :: handle_endtag rest tag

/-- `HTMLFragmentParser.get_open_tags`: return (a copy of) the open-tag list. -/
def get_open_tags (stack : List TagEntry) : List TagEntry := stack

/-- `rebuild_open_tags`: render the entries in original open order (the reverse
of our most-recent-first stack) as `<tag key="value" ...>`, matching the
f-string `f'\x7bkey\x7d="\x7bvalue\x7d"'` (a `None` value prints as `None`). -/
def renderAttr (a : String × Option String) : String :=
  a.1 ++ "=\"" ++ (match a.2 with | some v => v | none => "None") ++ "\""

/-- Render one open tag as the source's f-string does. -/
def renderOpenTag (t : TagEntry) : String :=
  let attrs_str := String.intercalate " " (t.2.map renderAttr)
  if attrs_str = "" then "<" ++ t.1 ++ ">" else "<" ++ t.1 ++ " " ++ attrs_str ++ ">"

/-- `"".join(...)` over a list of parts. -/
def joinParts : List String → String
  | [] => ""
  | p :: ps => p ++ joinParts ps

/-- `rebuild_open_tags(tags)` from the source, over the original-order list. -/
def rebuild_open_tags (stack : List TagEntry) : String :=
  joinParts (stack.reverse.map renderOpenTag)

/-- `rebuild_close_tags(tags)` from the source: closing tags in reverse of the
original open order, i.e. in our most-recent-first order. -/
def rebuild_close_tags (stack : List TagEntry) : String :=
  joinParts (stack.map (fun t => "</" ++ t.1 ++ ">"))

/-- The parser state that matters to the splitter: the subclass attribute
`open_tags` and the standard parser's CDATA flag (`cdata_elem`). -/
structure ParserState where
  openTags : List TagEntry
  cdataElem : Option String
deriving Repr, DecidableEq

/-- `HTMLParser.CDATA_CONTENT_ELEMENTS`. -/
def CDATA_CONTENT_ELEMENTS : List String := ["script", "style"]

/-- Whether a start-tag token is dispatched to `handle_startendtag`
(`<.../>`). -/
def isSelfClosing (tok : List Char) : Bool :=
  match tok.reverse with
  | '>' :: '/' :: _ => true
  | _ => false

/-- `parser.feed(part)` for one whole token, as dispatched by the standard
parser: end-tag tokens call `handle_endtag` (ignored inside a non-matching
CDATA section); start-tag tokens call `handle_starttag` and enter CDATA mode
for `script`/`style`, except that `<.../>` goes through `handle_startendtag`,
which pushes and immediately pops the same entry, leaving the stack unchanged;
tokens that are not recognised as tags (text, or `<` not followed by a letter)
only produce data and leave the stack unchanged. -/
def feedToken (st : ParserState) (tok : List Char) : ParserState :=
  match tok with
  | '<' :: '/' :: rest =>
    (match parseTagName rest with
     | some nm =>
       match st.cdataElem with
       | some el =>
         if nm = el then ⟨handle_endtag st.openTags nm, none⟩ else st
       | none => ⟨handle_endtag st.openTags nm, st.cdataElem⟩
     | none => st)
  | '<' :: rest =>
    (match st.cdataElem with
     | some _ => st
     | none =>
       match parseTagName rest with
       | some nm =>
         if isSelfClosing tok then st
         else
           ⟨handle_starttag st.openTags nm (parseAttrs (afterName rest)),
            if nm ∈ CDATA_CONTENT_ELEMENTS then some nm else none⟩
       | none => st)
  | _ => st

/-- `HTMLParser.reset()`: clears the lexing state, including `cdata_elem`, but
does not touch the subclass attribute `open_tags` (it is not assigned in
`reset`). -/
def parserReset (st : ParserState) : ParserState := ⟨st.openTags, none⟩

/-- A fresh `HTMLFragmentParser()`. -/
def freshParser : ParserState := ⟨[], none⟩

/-! ### The splitter: `split_message` -/

/-- The loop state of `split_message`: the accumulated parts, the running
length, the parser, and the Python local variable `close_tags` as last
assigned inside the loop (it is read again after the loop ends). -/
structure LoopState where
  currentFragment : List String
  currentLength : Nat
  parser : ParserState
  close_tags : String
deriving Repr, DecidableEq

/-- The state before the first loop iteration. -/
def initState : LoopState := ⟨[], 0, freshParser, ""⟩

/-- One iteration of the `for match in re.finditer(...)` loop body, returning
the next state and the fragment yielded by this iteration, if any.  The loop
locals `close_tags = rebuild_close_tags(parser.get_open_tags())` and
`added_tags_length = len(close_tags)` are inlined; on overflow the source
yields the accumulated text plus `close_tags`, calls `parser.reset()` (which
leaves `open_tags` untouched), rebuilds the reopening markup from
`parser.get_open_tags()`, and restarts the accumulator; either way the token
is then fed to the parser. -/
def splitStep (max_len : Int) (st : LoopState) (part : String) :
    LoopState × Option String :=
  if (st.currentLength : Int) + part.length
      + (rebuild_close_tags (get_open_tags st.parser.openTags)).length > max_len then
    (⟨[rebuild_open_tags (get_open_tags (parserReset st.parser).openTags), part],
      (rebuild_open_tags (get_open_tags (parserReset st.parser).openTags)).length
        + part.length,
      feedToken (parserReset st.parser) part.data,
      rebuild_close_tags (get_open_tags st.parser.openTags)⟩,
     some (joinParts st.currentFragment
            ++ rebuild_close_tags (get_open_tags st.parser.openTags)))
  else
    (⟨st.currentFragment ++ [part], st.currentLength + part.length,
      feedToken st.parser part.data,
      rebuild_close_tags (get_open_tags st.parser.openTags)⟩, none)

/-- Run the loop over the token stream, collecting yielded fragments in order
and returning the state after the loop. -/
def runSplit (max_len : Int) : LoopState → List String → List String × LoopState
  | st, [] => ([], st)
  | st, p :: ps =>
    match splitStep max_len st p with
    | (st2, em) =>
      match runSplit max_len st2 ps with
      | (out, fin) => (em.toList ++ out, fin)

/-- `split_message(source, max_len)`: the list of all yielded fragments.  After
the loop, if the accumulator is non-empty, the source yields it with the loop
variable `close_tags` (as last assigned inside the loop) appended.  The source
performs no validation of `max_len` and contains no `raise`; the function is
total. -/
def split_message (source : String) (max_len : Int) : List String :=
  match runSplit max_len initState (tokens source) with
  | (out, fin) =>
    out ++ (if fin.currentFragment = [] then []
            else [joinParts fin.currentFragment ++ fin.close_tags])

/-- Feed a string's tokens to a fresh tracker and return the final open-tag
stack (most-recent-first). -/
def trackStack (s : String) : List TagEntry :=
  (List.foldl feedToken freshParser (tokenize s.data)).openTags

/-- Loop invariant of `split_message`: `current_length` equals the length of
the accumulated text, the accumulated text either still fits within `max_len`
or is exactly reopening markup followed by one single source token (the
restart shape after a cut), and the loop variable `close_tags` is always a
rendering of some stack. -/
def CoreInv (m : Int) (allToks : List String) (st : LoopState) : Prop :=
  st.currentLength = (joinParts st.currentFragment).length ∧
  (((st.currentLength : Int) ≤ m) ∨
    ∃ stk tok, tok ∈ allToks ∧
      joinParts st.currentFragment = rebuild_open_tags stk ++ tok) ∧
  (∃ stk, st.close_tags = rebuild_close_tags stk)

/-- Shape of an emitted fragment: a core (the accumulated text) plus a
synthetic closing suffix, where the core either has length at most `max_len`
or is reopening markup followed by a single source token. -/
def GoodFragment (m : Int) (allToks : List String) (f : String) : Prop :=
  ∃ core stk, f = core ++ rebuild_close_tags stk ∧
    (((core.length : Int) ≤ m) ∨
      ∃ stk2 tok, tok ∈ allToks ∧ core = rebuild_open_tags stk2 ++ tok)

/-- One fragment of the partition view: reopening markup, the consecutive
group of source tokens placed in this fragment, and closing markup. -/
def renderCut (x : String × List String × String) : String :=
  x.1 ++ joinParts x.2.1 ++ x.2.2

/-- The synthetic parts of a cut are renderings of some open-tag stack. -/
def GoodCut (x : String × List String × String) : Prop :=
  (∃ stk, x.1 = rebuild_open_tags stk) ∧ (∃ stk, x.2.2 = rebuild_close_tags stk)

/-! ### General lemmas about the embedding -/

theorem joinParts_append (l : List String) (s : String) :
    joinParts (l ++ [s]) = joinParts l ++ s := by
  induction l with
  | nil => simp [joinParts, String.append_empty, String.empty_append]
  | cons p ps ih => simp [joinParts, ih, String.append_assoc]

theorem splitStep_cut (max_len : Int) (st : LoopState) (part : String)
    (h : (st.currentLength : Int) + part.length
        + (rebuild_close_tags (get_open_tags st.parser.openTags)).length > max_len) :
    splitStep max_len st part =
      (⟨[rebuild_open_tags (get_open_tags (parserReset st.parser).openTags), part],
        (rebuild_open_tags (get_open_tags (parserReset st.parser).openTags)).length
          + part.length,
        feedToken (parserReset st.parser) part.data,
        rebuild_close_tags (get_open_tags st.parser.openTags)⟩,
       some (joinParts st.currentFragment
              ++ rebuild_close_tags (get_open_tags st.parser.openTags))) := by
  unfold splitStep
  rw [if_pos h]

theorem splitStep_append (max_len : Int) (st : LoopState) (part : String)
    (h : ¬ ((st.currentLength : Int) + part.length
        + (rebuild_close_tags (get_open_tags st.parser.openTags)).length > max_len)) :
    splitStep max_len st part =
      (⟨st.currentFragment ++ [part], st.currentLength + part.length,
        feedToken st.parser part.data,
        rebuild_close_tags (get_open_tags st.parser.openTags)⟩, none) := by
  unfold splitStep
  rw [if_neg h]

theorem splitStep_fragment_ne_nil (max_len : Int) (st : LoopState) (part : String) :
    (splitStep max_len st part).1.currentFragment ≠ [] := by
  unfold splitStep
  split <;> simp

theorem runSplit_cons (max_len : Int) (st : LoopState) (p : String) (ps : List String) :
    runSplit max_len st (p :: ps) =
      ((splitStep max_len st p).2.toList ++ (runSplit max_len (splitStep max_len st p).1 ps).1,
        (runSplit max_len (splitStep max_len st p).1 ps).2) := by
  conv_lhs => rw [runSplit]

theorem runSplit_fragment_ne_nil (max_len : Int) :
    ∀ (toks : List String) (st : LoopState), toks ≠ [] →
      (runSplit max_len st toks).2.currentFragment ≠ [] := by
  intro toks
  induction toks with
  | nil => intro st h; exact absurd rfl h
  | cons p ps ih =>
    intro st _
    rw [runSplit_cons]
    cases ps with
    | nil => exact splitStep_fragment_ne_nil max_len st p
    | cons q qs => exact ih (splitStep max_len st p).1 (by simp)

theorem tokenizeF_ne_nil :
    ∀ (f : Nat) (l : List Char) (t : List Char), t ∈ tokenizeF f l → t ≠ [] := by
  intro f
  induction f with
  | zero => intro l t ht; simp [tokenizeF] at ht
  | succ f ih =>
    intro l t ht
    cases l with
    | nil => simp [tokenizeF] at ht
    | cons c cs =>
      rw [tokenizeF.eq_def] at ht
      simp only [] at ht
      by_cases hc : c = '<'
      · rw [if_pos hc] at ht
        repeat' split at ht
        all_goals try exact ih _ t ht
        all_goals rcases List.mem_cons.mp ht with h | h
        all_goals try exact ih _ t h
        all_goals subst h
        all_goals simp
      · rw [if_neg hc] at ht
        rcases List.mem_cons.mp ht with h | h
        · subst h
          have hb : (c != '<') = true := by simpa using hc
          simp [List.takeWhile_cons, hb]
        · exact ih _ t h

theorem tokens_length_pos (s : String) : ∀ t ∈ tokens s, 1 ≤ t.length := by
  intro t ht
  rcases List.mem_map.mp ht with ⟨l, hl, rfl⟩
  have hne : l ≠ [] := tokenizeF_ne_nil _ _ l hl
  have : (String.mk l).length = l.length := rfl
  rw [this]
  exact Nat.one_le_iff_ne_zero.mpr (fun h => hne (List.length_eq_zero.mp h))

/-! ### The claims -/

/-- C1: the claim states that every yielded fragment, independently tokenized
and fed to a fresh tracker, ends with an empty open-tag stack.  The code
violates this for the final fragment: after the loop, the source appends the
loop variable `close_tags` as last assigned, which was computed from the stack
*before* the final token was fed (line 85 runs before the `parser.feed(part)`
of line 101).  For source `"<p>"` that stale value is `""`, so the single
yielded fragment is `"<p>"`, which leaves `p` open when re-tokenized and fed to
a fresh tracker. -/
theorem C1_final_fragment_unbalanced :
    split_message "<p>" 10 = ["<p>"] ∧ trackStack "<p>" ≠ [] := by
  decide

/-- C2: the claim states that the final fragment is emitted with the closing
suffix for exactly the tags still open at end of input.  For source
`"<p>hello</p>"` no tags are open at end of input (second conjunct), yet the
code appends the stale `close_tags` value `"</p>"` computed before the final
`"</p>"` token was fed, yielding `"<p>hello</p></p>"` instead of
`"<p>hello</p>"`. -/
theorem C2_stale_close_suffix :
    split_message "<p>hello</p>" 100 = ["<p>hello</p></p>"] ∧
    trackStack "<p>hello</p>" = [] := by
  decide

/-- C3 counterexample: for source `"<p><b>x"` and `max_len = 10` the first
yielded fragment is `"<p><b></b></p>"` of length 14 > 10, although every token
of the source has length at most 10; its core (between the empty synthetic
opening and the closing suffix `"</b></p>"`) is `"<p><b>"`, the concatenation
of the first **two** source tokens, not a single oversized token, refuting the
claim as stated. -/
theorem C3_counterexample :
    (split_message "<p><b>x" 10).head? = some "<p><b></b></p>" ∧
    ¬ (("<p><b></b></p>" : String).length ≤ 10) ∧
    tokens "<p><b>x" = ["<p>", "<b>", "x"] ∧
    (∀ t ∈ tokens "<p><b>x", t.length ≤ 10) ∧
    "<p><b></b></p>" =
      joinParts ["<p>", "<b>"] ++ rebuild_close_tags [("b", []), ("p", [])] := by
  decide

/-- C8 counterexample: `split_message` performs no validation of `max_len` and
contains no `raise` at all; for the non-positive values `0` and `-5` it
produces fragments (here `""` and `"ab"`) rather than failing before any
fragment is produced. -/
theorem C8_no_validation :
    split_message "ab" 0 = ["", "ab"] ∧ split_message "ab" (-5) = ["", "ab"] := by
  decide

/-- C9 counterexample: for source `"<p>" + "A"*50 + "</p>"` and `max_len = 30`
the output is not the claimed two-fragment list — the run of 50 `A`s is a
single text token and is never subdivided. -/
theorem C9_counterexample :
    split_message ("<p>" ++ String.mk (List.replicate 50 'A') ++ "</p>") 30 ≠
      ["<p>" ++ String.mk (List.replicate 27 'A') ++ "</p>",
       "<p>" ++ String.mk (List.replicate 23 'A') ++ "</p>"] := by
  decide

/-- C9 as amended: the source actually yields three fragments — `"<p></p>"`
(the `A`-run of 50 does not fit after `"<p>"`, so the accumulator is cut
already), then `"<p>" + "A"*50 + "</p>"` (the atomic oversized text token with
reopening prefix and closing suffix), then `"<p></p></p>"` (the reopened `<p>`,
the source's `"</p>"` token, and the stale final `close_tags` value
`"</p>"`). -/
theorem C9_actual_output :
    split_message ("<p>" ++ String.mk (List.replicate 50 'A') ++ "</p>") 30 =
      ["<p></p>", "<p>" ++ String.mk (List.replicate 50 'A') ++ "</p>",
       "<p></p></p>"] := by
  decide

theorem split_message_eq (source : String) (m : Int) :
    split_message source m =
      (runSplit m initState (tokens source)).1
        ++ (if (runSplit m initState (tokens source)).2.currentFragment = [] then []
            else [joinParts (runSplit m initState (tokens source)).2.currentFragment
                   ++ (runSplit m initState (tokens source)).2.close_tags]) := by
  conv_lhs => rw [split_message]

theorem joinParts_pair (a b : String) : joinParts [a, b] = a ++ b := by
  simp [joinParts, String.append_empty]

theorem handle_endtag_cons (e : TagEntry) (rest : List TagEntry) (tag : String) :
    handle_endtag (e :: rest) tag =
      if e.1 = tag then rest else e :: handle_endtag rest tag := rfl

/-- C5: a token is appended (and no fragment yielded) exactly when
`current_length + part_len + added_tags_length ≤ max_len`, the closing suffix
being the one for the tags open just before the token; so an accumulator may
reach exactly `max_len`: in the concrete conjuncts, `3 + 3 + 4 = 10` is still
appended with `max_len = 10` but cut with `max_len = 9`. -/
theorem C5_strict_overflow_check :
    (∀ (max_len : Int) (st : LoopState) (part : String),
      ((splitStep max_len st part).2 = none ↔
        (st.currentLength : Int) + part.length
          + (rebuild_close_tags (get_open_tags st.parser.openTags)).length ≤ max_len) ∧
      ((splitStep max_len st part).2 = none →
        (splitStep max_len st part).1.currentFragment = st.currentFragment ++ [part])) ∧
    (splitStep 10 ⟨["<p>"], 3, ⟨[("p", [])], none⟩, ""⟩ "<b>").2 = none ∧
    (splitStep 10 ⟨["<p>"], 3, ⟨[("p", [])], none⟩, ""⟩ "<b>").1.currentLength = 6 ∧
    (splitStep 9 ⟨["<p>"], 3, ⟨[("p", [])], none⟩, ""⟩ "<b>").2 = some "<p></p>" := by
  refine ⟨?_, by decide, by decide, by decide⟩
  intro max_len st part
  by_cases h : (st.currentLength : Int) + part.length
      + (rebuild_close_tags (get_open_tags st.parser.openTags)).length > max_len
  · rw [splitStep_cut max_len st part h]
    constructor
    · simp only []
      constructor
      · intro hsome
        exact absurd hsome (by simp)
      · intro hle
        omega
    · intro hsome
      exact absurd hsome (by simp)
  · rw [splitStep_append max_len st part h]
    exact ⟨by simpa using not_lt.mp h, fun _ => rfl⟩

/-- C5 witness: the general part applied at `max_len = 10`,
`current_length = 3`, open tag `p`, token `"<b>"` (sum exactly 10). -/
theorem C5_witness :
    (splitStep 10 ⟨["<p>"], 3, ⟨[("p", [])], none⟩, ""⟩ "<b>").2 = none ∧
    (splitStep 10 ⟨["<p>"], 3, ⟨[("p", [])], none⟩, ""⟩ "<b>").1.currentFragment =
      ["<p>"] ++ ["<b>"] := by
  have h := C5_strict_overflow_check.1 10 ⟨["<p>"], 3, ⟨[("p", [])], none⟩, ""⟩ "<b>"
  have hn : (splitStep 10 ⟨["<p>"], 3, ⟨[("p", [])], none⟩, ""⟩ "<b>").2 = none :=
    h.1.mpr (by decide)
  exact ⟨hn, h.2 hn⟩

/-- C6: when the overflow check fires, the yielded fragment is the accumulated
text plus the closing suffix for the tags open at the cut; `parser.reset()`
leaves `open_tags` unchanged, so the next accumulator is exactly the reopening
markup of the tags open at the cut followed by the overflowing token, and
`current_length` restarts at the length of that reopening markup plus the
token's length. -/
theorem C6_cut_structure (max_len : Int) (st : LoopState) (part : String)
    (h : (st.currentLength : Int) + part.length
        + (rebuild_close_tags (get_open_tags st.parser.openTags)).length > max_len) :
    (splitStep max_len st part).2 =
      some (joinParts st.currentFragment
             ++ rebuild_close_tags (get_open_tags st.parser.openTags)) ∧
    (parserReset st.parser).openTags = st.parser.openTags ∧
    (splitStep max_len st part).1.currentFragment =
      [rebuild_open_tags (get_open_tags st.parser.openTags), part] ∧
    (splitStep max_len st part).1.currentLength =
      (rebuild_open_tags (get_open_tags st.parser.openTags)).length + part.length := by
  rw [splitStep_cut max_len st part h]
  exact ⟨rfl, rfl, rfl, rfl⟩

/-- C6 witness: the cut at `max_len = 3` with one open `p` tag and the token
`"xxxx"` (`0 + 4 + 4 > 3`). -/
theorem C6_witness :
    (splitStep 3 ⟨[], 0, ⟨[("p", [])], none⟩, ""⟩ "xxxx").2 =
      some (joinParts [] ++ rebuild_close_tags (get_open_tags [("p", [])])) ∧
    (parserReset (⟨[("p", [])], none⟩ : ParserState)).openTags = [("p", [])] ∧
    (splitStep 3 ⟨[], 0, ⟨[("p", [])], none⟩, ""⟩ "xxxx").1.currentFragment =
      [rebuild_open_tags (get_open_tags [("p", [])]), "xxxx"] ∧
    (splitStep 3 ⟨[], 0, ⟨[("p", [])], none⟩, ""⟩ "xxxx").1.currentLength =
      (rebuild_open_tags (get_open_tags [("p", [])])).length + ("xxxx" : String).length :=
  C6_cut_structure 3 ⟨[], 0, ⟨[("p", [])], none⟩, ""⟩ "xxxx" (by decide)

/-- C7: feeding an end tag removes exactly the first matching entry scanning
from the most recently pushed one (entries pushed after it are left in place);
an unmatched end tag is silently ignored; a start tag pushes one entry; tokens
that are not tags leave the stack unchanged.  The stack is most-recent-first
here, so "scanning from the top" is scanning from the head. -/
theorem C7_endtag_semantics :
    (∀ (above : List TagEntry) (e : TagEntry) (below : List TagEntry) (tag : String),
        (∀ x ∈ above, x.1 ≠ tag) → e.1 = tag →
        handle_endtag (above ++ e :: below) tag = above ++ below) ∧
    (∀ (stack : List TagEntry) (tag : String),
        (∀ x ∈ stack, x.1 ≠ tag) → handle_endtag stack tag = stack) ∧
    (∀ (stack : List TagEntry) (tag : String) (attrs : Attrs),
        handle_starttag stack tag attrs = (tag, attrs) :: stack) ∧
    (∀ (st : ParserState) (tok : List Char),
        tok.head? ≠ some '<' → feedToken st tok = st) := by
  refine ⟨?_, ?_, fun _ _ _ => rfl, ?_⟩
  · intro above
    induction above with
    | nil =>
      intro e below tag _ he
      rw [List.nil_append, handle_endtag_cons, if_pos he, List.nil_append]
    | cons a as ih =>
      intro e below tag hab he
      have ha : a.1 ≠ tag := hab a (List.mem_cons_self a as)
      rw [List.cons_append, handle_endtag_cons, if_neg ha, List.cons_append]
      exact congrArg (a :: ·)
        (ih e below tag (fun x hx => hab x (List.mem_cons_of_mem a hx)) he)
  · intro stack
    induction stack with
    | nil => intro tag _; rfl
    | cons e rest ih =>
      intro tag h
      rw [handle_endtag_cons, if_neg (h e (List.mem_cons_self e rest))]
      exact congrArg (e :: ·) (ih tag (fun x hx => h x (List.mem_cons_of_mem e hx)))
  · intro st tok h
    rw [feedToken.eq_def]
    split
    · simp_all
    · simp_all
    · rfl

/-- C7 witness: removing `p` from `[b, p, b]` keeps the more recent `b`;
`q` matches nothing and is ignored; a start tag pushes; plain text is a
no-op. -/
theorem C7_witness :
    handle_endtag [("b", []), ("p", []), ("b", [])] "p" = [("b", []), ("b", [])] ∧
    handle_endtag [("p", [])] "q" = [("p", [])] ∧
    handle_starttag [] "p" [] = [("p", [])] ∧
    feedToken freshParser ("hello" : String).data = freshParser := by
  refine ⟨?_, ?_, ?_, ?_⟩
  · exact C7_endtag_semantics.1 [("b", [])] ("p", []) [("b", [])] "p" (by decide) rfl
  · exact C7_endtag_semantics.2.1 [("p", [])] "q" (by decide)
  · exact C7_endtag_semantics.2.2.1 [] "p" []
  · exact C7_endtag_semantics.2.2.2 freshParser ("hello" : String).data (by decide)

theorem runSplit_length_nonpos (m : Int) (hm : m ≤ 0) :
    ∀ (toks : List String) (st : LoopState), (∀ t ∈ toks, 1 ≤ t.length) →
      (runSplit m st toks).1.length = toks.length := by
  intro toks
  induction toks with
  | nil => intro st _; rfl
  | cons p ps ih =>
    intro st hts
    rw [runSplit_cons]
    have hp : 1 ≤ p.length := hts p (List.mem_cons_self p ps)
    have hcond : (st.currentLength : Int) + p.length
        + (rebuild_close_tags (get_open_tags st.parser.openTags)).length > m := by
      have h2 : (1 : Int) ≤ (p.length : Int) := by exact_mod_cast hp
      have h1 : (0 : Int) ≤ (st.currentLength : Int) := Int.natCast_nonneg _
      have h3 : (0 : Int) ≤
          ((rebuild_close_tags (get_open_tags st.parser.openTags)).length : Int) :=
        Int.natCast_nonneg _
      omega
    have h2 : (splitStep m st p).2 = some (joinParts st.currentFragment
        ++ rebuild_close_tags (get_open_tags st.parser.openTags)) := by
      rw [splitStep_cut m st p hcond]
    have h3 := ih (splitStep m st p).1 (fun t htm => hts t (List.mem_cons_of_mem p htm))
    simp only [h2, Option.toList_some, List.singleton_append, List.length_cons, h3]

/-- C8 as amended: `split_message` performs no validation of `max_len` and
never raises; for a non-positive `max_len` every token overflows, so the run
degenerates to one yielded fragment per token plus the final flush — it does
not fail before producing fragments. -/
theorem C8_amended_no_error (s : String) (m : Int) (hm : m ≤ 0) :
    (split_message s m).length =
      (tokens s).length + (if tokens s = [] then 0 else 1) := by
  rw [split_message_eq]
  by_cases h0 : tokens s = []
  · rw [h0]
    simp [runSplit, initState]
  · have hlen := runSplit_length_nonpos m hm (tokens s) initState (tokens_length_pos s)
    have hne := runSplit_fragment_ne_nil m (tokens s) initState h0
    rw [if_neg hne, if_neg h0]
    simp [List.length_append, hlen]

/-- C8 amended witness: at source `"ab"` and `max_len = 0` the run yields
two fragments (one per token plus the flush). -/
theorem C8_amended_witness :
    (0 : Int) ≤ 0 ∧
    (split_message "ab" 0).length =
      (tokens "ab").length + (if tokens "ab" = [] then 0 else 1) :=
  ⟨le_refl 0, C8_amended_no_error "ab" 0 (le_refl 0)⟩

theorem parserReset_openTags (p : ParserState) :
    (parserReset p).openTags = p.openTags := rfl

theorem splitStep_coreInv (m : Int) (allToks : List String) (st : LoopState)
    (p : String) (hp : p ∈ allToks) (hinv : CoreInv m allToks st) :
    CoreInv m allToks (splitStep m st p).1 ∧
    ∀ f, (splitStep m st p).2 = some f → GoodFragment m allToks f := by
  rcases hinv with ⟨h1, h2, _⟩
  by_cases hcond : (st.currentLength : Int) + p.length
      + (rebuild_close_tags (get_open_tags st.parser.openTags)).length > m
  · rw [splitStep_cut m st p hcond]
    refine ⟨⟨?_, ?_, ⟨get_open_tags st.parser.openTags, rfl⟩⟩, ?_⟩
    · show (rebuild_open_tags (get_open_tags (parserReset st.parser).openTags)).length
          + p.length
        = (joinParts [rebuild_open_tags (get_open_tags (parserReset st.parser).openTags),
            p]).length
      rw [joinParts_pair, String.length_append]
    · right
      exact ⟨get_open_tags (parserReset st.parser).openTags, p, hp, by
        show joinParts [rebuild_open_tags (get_open_tags (parserReset st.parser).openTags),
            p] = rebuild_open_tags (get_open_tags (parserReset st.parser).openTags) ++ p
        rw [joinParts_pair]⟩
    · intro f hf
      rw [Option.some_inj] at hf
      refine ⟨joinParts st.currentFragment, get_open_tags st.parser.openTags, hf.symm, ?_⟩
      rcases h2 with h2 | ⟨stk, tok, htok, heq⟩
      · left; rw [← h1]; exact h2
      · right; exact ⟨stk, tok, htok, heq⟩
  · rw [splitStep_append m st p hcond]
    refine ⟨⟨?_, ?_, ⟨get_open_tags st.parser.openTags, rfl⟩⟩, ?_⟩
    · show st.currentLength + p.length = (joinParts (st.currentFragment ++ [p])).length
      rw [joinParts_append, String.length_append, h1]
    · left
      show ((st.currentLength + p.length : Nat) : Int) ≤ m
      have hnn : (0 : Int) ≤
          ((rebuild_close_tags (get_open_tags st.parser.openTags)).length : Int) :=
        Int.natCast_nonneg _
      push_cast
      push_cast at hcond
      omega
    · intro f hf
      simp at hf

theorem runSplit_coreInv (m : Int) (allToks : List String) :
    ∀ (toks : List String) (st : LoopState), (∀ t ∈ toks, t ∈ allToks) →
      CoreInv m allToks st →
      CoreInv m allToks (runSplit m st toks).2 ∧
      ∀ f ∈ (runSplit m st toks).1, GoodFragment m allToks f := by
  intro toks
  induction toks with
  | nil =>
    intro st _ hinv
    exact ⟨hinv, by intro f hf; simp [runSplit] at hf⟩
  | cons p ps ih =>
    intro st hts hinv
    have hstep := splitStep_coreInv m allToks st p (hts p (List.mem_cons_self p ps)) hinv
    have hrun := ih (splitStep m st p).1
      (fun t htm => hts t (List.mem_cons_of_mem p htm)) hstep.1
    rw [runSplit_cons]
    refine ⟨hrun.1, ?_⟩
    intro f hf
    rcases List.mem_append.mp hf with h | h
    · rcases hopt : (splitStep m st p).2 with _ | g
      · rw [hopt] at h; simp at h
      · rw [hopt] at h
        simp at h
        subst h
        exact hstep.2 _ hopt
    · exact hrun.2 f h

/-- C3 as amended: every yielded fragment is its accumulated core plus a
synthetic closing suffix, and the core either has length at most `max_len` or
is exactly the reopening markup followed by one single source token (the
atomic-overflow restart); the fragment itself may exceed `max_len` by the
closing suffix even when the core holds several tokens. -/
theorem C3_amended_core_bound (s : String) (m : Int) (hm : 0 < m) :
    ∀ f ∈ split_message s m, GoodFragment m (tokens s) f := by
  have hini : CoreInv m (tokens s) initState := by
    refine ⟨rfl, Or.inl ?_, ⟨[], rfl⟩⟩
    show ((0 : Nat) : Int) ≤ m
    omega
  have H := runSplit_coreInv m (tokens s) (tokens s) initState (fun t ht => ht) hini
  intro f hf
  rw [split_message_eq] at hf
  rcases List.mem_append.mp hf with h | h
  · exact H.2 f h
  · by_cases hnil : (runSplit m initState (tokens s)).2.currentFragment = []
    · rw [if_pos hnil] at h; simp at h
    · rw [if_neg hnil] at h
      have hfeq : f = joinParts (runSplit m initState (tokens s)).2.currentFragment
          ++ (runSplit m initState (tokens s)).2.close_tags := by simpa using h
      rcases H.1 with ⟨g1, g2, stkL, hstk⟩
      refine ⟨joinParts (runSplit m initState (tokens s)).2.currentFragment, stkL, ?_, ?_⟩
      · rw [hfeq, hstk]
      · rcases g2 with g2 | ⟨stk, tok, htok, heq⟩
        · left; rw [← g1]; exact g2
        · right; exact ⟨stk, tok, htok, heq⟩

/-- C3 amended witness: the amended statement at the counterexample input
`"<p><b>x"`, `max_len = 10`, evaluated at the oversized first fragment. -/
theorem C3_amended_witness :
    (0 : Int) < 10 ∧ GoodFragment 10 (tokens "<p><b>x") "<p><b></b></p>" :=
  ⟨by decide,
    C3_amended_core_bound "<p><b>x" 10 (by decide) "<p><b></b></p>" (by decide)⟩

theorem runSplit_close_tags_shape (m : Int) :
    ∀ (toks : List String) (st : LoopState),
      (∃ stk, st.close_tags = rebuild_close_tags stk) →
      ∃ stk, (runSplit m st toks).2.close_tags = rebuild_close_tags stk := by
  intro toks
  induction toks with
  | nil => intro st h; exact h
  | cons p ps ih =>
    intro st _
    rw [runSplit_cons]
    refine ih (splitStep m st p).1 ?_
    by_cases hcond : (st.currentLength : Int) + p.length
        + (rebuild_close_tags (get_open_tags st.parser.openTags)).length > m
    · rw [splitStep_cut m st p hcond]
      exact ⟨get_open_tags st.parser.openTags, rfl⟩
    · rw [splitStep_append m st p hcond]
      exact ⟨get_open_tags st.parser.openTags, rfl⟩

theorem runSplit_partition (m : Int) :
    ∀ (toks : List String) (st : LoopState) (pfx : String) (group : List String),
      joinParts st.currentFragment = pfx ++ joinParts group →
      (∃ stk, pfx = rebuild_open_tags stk) →
      ∃ (cuts : List (String × List String × String)) (pfx2 : String)
        (group2 : List String),
        (runSplit m st toks).1 = cuts.map renderCut ∧
        (cuts.map (fun x => x.2.1)).flatten ++ group2 = group ++ toks ∧
        joinParts (runSplit m st toks).2.currentFragment = pfx2 ++ joinParts group2 ∧
        (∃ stk, pfx2 = rebuild_open_tags stk) ∧
        (∀ x ∈ cuts, GoodCut x) := by
  intro toks
  induction toks with
  | nil =>
    intro st pfx group h1 h2
    exact ⟨[], pfx, group, rfl, by simp, h1, h2, by intro x hx; simp at hx⟩
  | cons p ps ih =>
    intro st pfx group h1 h2
    rw [runSplit_cons]
    by_cases hcond : (st.currentLength : Int) + p.length
        + (rebuild_close_tags (get_open_tags st.parser.openTags)).length > m
    · have hsnd : (splitStep m st p).2 = some (joinParts st.currentFragment
          ++ rebuild_close_tags (get_open_tags st.parser.openTags)) := by
        rw [splitStep_cut m st p hcond]
      have hfst : joinParts (splitStep m st p).1.currentFragment
          = rebuild_open_tags (get_open_tags (parserReset st.parser).openTags)
            ++ joinParts [p] := by
        rw [splitStep_cut m st p hcond]
        rfl
      obtain ⟨cuts, pfx2, group2, e1, e2, e3, e4, e5⟩ :=
        ih (splitStep m st p).1
          (rebuild_open_tags (get_open_tags (parserReset st.parser).openTags)) [p]
          hfst ⟨get_open_tags (parserReset st.parser).openTags, rfl⟩
      refine ⟨(pfx, group, rebuild_close_tags (get_open_tags st.parser.openTags)) :: cuts,
        pfx2, group2, ?_, ?_, e3, e4, ?_⟩
      · rw [hsnd, e1]
        simp only [Option.toList_some, List.singleton_append, List.map_cons]
        show (joinParts st.currentFragment
              ++ rebuild_close_tags (get_open_tags st.parser.openTags))
            :: cuts.map renderCut
          = (pfx ++ joinParts group
              ++ rebuild_close_tags (get_open_tags st.parser.openTags))
            :: cuts.map renderCut
        rw [h1]
      · simp only [List.map_cons, List.flatten_cons]
        rw [List.append_assoc, e2]
        simp
      · intro x hx
        rcases List.mem_cons.mp hx with h | h
        · subst h
          exact ⟨h2, ⟨get_open_tags st.parser.openTags, rfl⟩⟩
        · exact e5 x h
    · have hsnd : (splitStep m st p).2 = none := by
        rw [splitStep_append m st p hcond]
      have hfst : joinParts (splitStep m st p).1.currentFragment
          = pfx ++ joinParts (group ++ [p]) := by
        rw [splitStep_append m st p hcond]
        show joinParts (st.currentFragment ++ [p]) = pfx ++ joinParts (group ++ [p])
        rw [joinParts_append, h1, joinParts_append, String.append_assoc]
      obtain ⟨cuts, pfx2, group2, e1, e2, e3, e4, e5⟩ :=
        ih (splitStep m st p).1 pfx (group ++ [p]) hfst h2
      refine ⟨cuts, pfx2, group2, ?_, ?_, e3, e4, e5⟩
      · rw [hsnd, e1]
        simp
      · rw [e2]
        simp

/-- Partition view of a whole run of `split_message`: the fragment list is the
rendering of a partition of the token stream into consecutive groups, each
fragment being synthetic reopening markup, then its group of whole tokens in
order, then a synthetic closing suffix. -/
theorem split_message_partition (s : String) (m : Int) :
    ∃ cuts : List (String × List String × String),
      split_message s m = cuts.map renderCut ∧
      (cuts.map (fun x => x.2.1)).flatten = tokens s ∧
      ∀ x ∈ cuts, GoodCut x := by
  obtain ⟨cuts, pfx2, group2, e1, e2, e3, e4, e5⟩ :=
    runSplit_partition m (tokens s) initState "" [] rfl ⟨[], rfl⟩
  obtain ⟨stkL, hstk⟩ :=
    runSplit_close_tags_shape m (tokens s) initState ⟨[], rfl⟩
  rw [split_message_eq]
  by_cases hnil : (runSplit m initState (tokens s)).2.currentFragment = []
  · by_cases h0 : tokens s = []
    · refine ⟨[], ?_, by rw [h0]; rfl, by intro x hx; simp at hx⟩
      rw [h0]
      rfl
    · exact absurd hnil (runSplit_fragment_ne_nil m (tokens s) initState h0)
  · rw [if_neg hnil]
    refine ⟨cuts ++ [(pfx2, group2, rebuild_close_tags stkL)], ?_, ?_, ?_⟩
    · rw [e1, List.map_append, List.map_singleton]
      show cuts.map renderCut
          ++ [joinParts (runSplit m initState (tokens s)).2.currentFragment
               ++ (runSplit m initState (tokens s)).2.close_tags]
        = cuts.map renderCut ++ [pfx2 ++ joinParts group2 ++ rebuild_close_tags stkL]
      rw [e3, hstk]
    · rw [List.map_append, List.map_singleton, List.flatten_append]
      show (cuts.map (fun x => x.2.1)).flatten ++ ([group2].flatten) = tokens s
      rw [List.flatten_singleton]
      simpa using e2
    · intro x hx
      rcases List.mem_append.mp hx with h | h
      · exact e5 x h
      · rcases List.mem_singleton.mp h with rfl
        exact ⟨e4, ⟨stkL, rfl⟩⟩

/-- C4: tokens are never split or altered — the fragment list is the rendering
of a partition of the token stream into consecutive groups, each fragment being
synthetic reopening markup, then its group of whole tokens in order, then a
synthetic closing suffix; the concrete conjunct shows a single text token whose
length exceeds `max_len` being placed whole into its own fragment (preceded by
an empty fragment emitted at the cut). -/
theorem C4_no_token_split :
    (∀ (s : String) (m : Int), 0 < m →
      ∃ cuts : List (String × List String × String),
        split_message s m = cuts.map renderCut ∧
        (cuts.map (fun x => x.2.1)).flatten = tokens s ∧
        ∀ x ∈ cuts, GoodCut x) ∧
    split_message "AAAAAAAAAA" 3 = ["", "AAAAAAAAAA"] :=
  ⟨fun s m _ => split_message_partition s m, by decide⟩

/-- C4 witness: the partition at source `"ab"`, `max_len = 1`. -/
theorem C4_witness :
    (0 : Int) < 1 ∧
    ∃ cuts : List (String × List String × String),
      split_message "ab" 1 = cuts.map renderCut ∧
      (cuts.map (fun x => x.2.1)).flatten = tokens "ab" ∧
      ∀ x ∈ cuts, GoodCut x :=
  ⟨by decide, C4_no_token_split.1 "ab" 1 (by decide)⟩

theorem tokenizeF_nil (f : Nat) : tokenizeF f [] = [] := by
  cases f with
  | zero => rfl
  | succ n => rfl

theorem tokenizeF_tag_slash (f : Nat) (ds : List Char) :
    tokenizeF (f + 1) ('<' :: '/' :: ds)
      = match tagBody ds with
        | some (body, rest) => ('<' :: '/' :: body) :: tokenizeF f rest
        | none => tokenizeF f ('/' :: ds) := by
  rw [tokenizeF.eq_3, if_pos rfl]

theorem tokenizeF_tag_noslash (f : Nat) (cs : List Char)
    (h : ∀ ds, cs ≠ '/' :: ds) :
    tokenizeF (f + 1) ('<' :: cs)
      = match tagBody cs with
        | some (body, rest) => ('<' :: body) :: tokenizeF f rest
        | none => tokenizeF f cs := by
  rw [tokenizeF.eq_4 f '<' cs (fun ds hds => h ds hds), if_pos rfl]

theorem tokenizeF_text (f : Nat) (c : Char) (cs : List Char) (hc : ¬ c = '<') :
    tokenizeF (f + 1) (c :: cs)
      = (c :: cs).takeWhile (fun x => x != '<')
          :: tokenizeF f ((c :: cs).dropWhile (fun x => x != '<')) := by
  rcases cs with _ | ⟨d, ds⟩
  · rw [tokenizeF.eq_4 f c [] (fun ds hds => by cases hds), if_neg hc]
  · by_cases hd : d = '/'
    · subst hd
      rw [tokenizeF.eq_3, if_neg hc]
    · rw [tokenizeF.eq_4 f c (d :: ds) (fun ds2 hds => by
        injection hds with h1 h2
        exact hd h1), if_neg hc]

theorem length_dropWhile_le (p : Char → Bool) :
    ∀ l : List Char, (l.dropWhile p).length ≤ l.length := by
  intro l
  induction l with
  | nil => simp [List.dropWhile]
  | cons a as ih =>
    rw [List.dropWhile_cons]
    by_cases hp : p a
    · rw [if_pos hp]
      exact Nat.le_succ_of_le ih
    · rw [if_neg hp]

theorem dropWhile_head_not {p : Char → Bool} :
    ∀ (l : List Char) (g : Char) (gs : List Char),
      l.dropWhile p = g :: gs → p g = false := by
  intro l
  induction l with
  | nil => intro g gs h; simp [List.dropWhile] at h
  | cons a as ih =>
    intro g gs h
    rw [List.dropWhile_cons] at h
    by_cases hp : p a
    · rw [if_pos hp] at h
      exact ih g gs h
    · rw [if_neg hp] at h
      injection h with h1 h2
      subst h1
      simpa using hp

theorem tagBody_decomp (x body rest : List Char)
    (h : tagBody x = some (body, rest)) : x = body ++ rest ∧ body ≠ [] := by
  cases x with
  | nil => simp [tagBody] at h
  | cons d ds =>
    rw [tagBody] at h
    by_cases hw : wordChar d
    · rw [if_pos hw] at h
      rcases hdrop : ds.dropWhile (fun x => x != '>') with _ | ⟨g, gs⟩
      · rw [hdrop] at h; simp at h
      · rw [hdrop] at h
        simp only [Option.some.injEq, Prod.mk.injEq] at h
        obtain ⟨hb, hr⟩ := h
        have hg : g = '>' := by
          have := dropWhile_head_not ds g gs hdrop
          simpa using this
        constructor
        · rw [← hb, ← hr]
          simp only [List.cons_append, List.append_assoc, List.singleton_append,
            List.nil_append]
          subst hg
          rw [← hdrop, List.takeWhile_append_dropWhile]
        · rw [← hb]; simp
    · rw [if_neg hw] at h
      simp at h

theorem decomp_cons_gap (cs : List Char)
    (pre : List (List Char × List Char)) (tail : List Char)
    (e1 : cs = (pre.map (fun x => x.1 ++ x.2)).flatten ++ tail)
    (e3 : ∀ x ∈ pre, ∀ c ∈ x.1, c = '<') (e4 : ∀ c ∈ tail, c = '<') :
    ∃ (pre2 : List (List Char × List Char)) (tail2 : List Char),
      '<' :: cs = (pre2.map (fun x => x.1 ++ x.2)).flatten ++ tail2 ∧
      pre2.map (fun x => x.2) = pre.map (fun x => x.2) ∧
      (∀ x ∈ pre2, ∀ c ∈ x.1, c = '<') ∧ (∀ c ∈ tail2, c = '<') := by
  cases pre with
  | nil =>
    refine ⟨[], '<' :: tail, ?_, rfl, by intro x hx; simp at hx, ?_⟩
    · simp only [List.map_nil, List.flatten_nil, List.nil_append] at e1 ⊢
      rw [e1]
    · intro c hcm
      rcases List.mem_cons.mp hcm with h | h
      · exact h
      · exact e4 c h
  | cons x xs =>
    refine ⟨('<' :: x.1, x.2) :: xs, tail, ?_, by simp, ?_, e4⟩
    · simp only [List.map_cons, List.flatten_cons, List.cons_append,
        List.append_assoc] at e1 ⊢
      rw [e1]
    · intro y hy
      rcases List.mem_cons.mp hy with h | h
      · subst h
        intro c hcm
        rcases List.mem_cons.mp hcm with h2 | h2
        · exact h2
        · exact e3 x (List.mem_cons_self x xs) c h2
      · exact e3 y (List.mem_cons_of_mem x h)

theorem tokenizeF_decomp :
    ∀ (f : Nat) (l : List Char), l.length ≤ f →
      ∃ (pre : List (List Char × List Char)) (tailGap : List Char),
        l = (pre.map (fun x => x.1 ++ x.2)).flatten ++ tailGap ∧
        pre.map (fun x => x.2) = tokenizeF f l ∧
        (∀ x ∈ pre, ∀ c ∈ x.1, c = '<') ∧
        (∀ c ∈ tailGap, c = '<') := by
  intro f
  induction f with
  | zero =>
    intro l hl
    have hnil : l = [] := List.length_eq_zero.mp (Nat.le_zero.mp hl)
    subst hnil
    exact ⟨[], [], rfl, rfl, by intro x hx; simp at hx, by intro c hc; simp at hc⟩
  | succ f ih =>
    intro l hl
    cases l with
    | nil =>
      exact ⟨[], [], rfl, (tokenizeF_nil (f + 1)).symm,
        by intro x hx; simp at hx, by intro c hc; simp at hc⟩
    | cons c cs =>
      by_cases hc : c = '<'
      · subst hc
        cases cs with
        | nil =>
          have hunf : tokenizeF (f + 1) ['<'] = [] := by
            rw [tokenizeF_tag_noslash f [] (fun ds hds => by cases hds)]
            show tokenizeF f [] = []
            exact tokenizeF_nil f
          refine ⟨[], ['<'], rfl, ?_, by intro x hx; simp at hx, ?_⟩
          · rw [hunf]; rfl
          · intro ch hch; simpa using hch
        | cons d ds =>
          by_cases hd : d = '/'
          · subst hd
            rcases htb : tagBody ds with _ | ⟨body, rest⟩
            · have hunf : tokenizeF (f + 1) ('<' :: '/' :: ds)
                  = tokenizeF f ('/' :: ds) := by
                rw [tokenizeF_tag_slash, htb]
              have hlen : ('/' :: ds).length ≤ f := by
                simp only [List.length_cons] at hl ⊢
                omega
              obtain ⟨pre, tail, e1, e2, e3, e4⟩ := ih ('/' :: ds) hlen
              obtain ⟨pre2, tail2, g1, g2, g3, g4⟩ :=
                decomp_cons_gap ('/' :: ds) pre tail e1 e3 e4
              exact ⟨pre2, tail2, g1, by rw [g2, e2, hunf], g3, g4⟩
            · obtain ⟨hdec, hbne⟩ := tagBody_decomp ds body rest htb
              have hunf : tokenizeF (f + 1) ('<' :: '/' :: ds)
                  = ('<' :: '/' :: body) :: tokenizeF f rest := by
                rw [tokenizeF_tag_slash, htb]
              have hrl : rest.length ≤ f := by
                have hlens := congrArg List.length hdec
                have hb1 : 1 ≤ body.length := by
                  cases body with
                  | nil => exact absurd rfl hbne
                  | cons b bs => simp
                simp only [List.length_append] at hlens
                simp only [List.length_cons] at hl
                omega
              obtain ⟨pre, tail, e1, e2, e3, e4⟩ := ih rest hrl
              refine ⟨([], '<' :: '/' :: body) :: pre, tail, ?_, ?_, ?_, e4⟩
              · simp only [List.map_cons, List.flatten_cons, List.nil_append,
                  List.cons_append, List.append_assoc]
                rw [hdec, e1]
              · rw [hunf]
                simp only [List.map_cons]
                rw [e2]
              · intro y hy
                rcases List.mem_cons.mp hy with h | h
                · subst h; intro ch hch; simp at hch
                · exact e3 y h
          · have hns : ∀ ds2, (d :: ds) ≠ '/' :: ds2 := fun ds2 hds => by
              injection hds with h1 h2
              exact hd h1
            rcases htb : tagBody (d :: ds) with _ | ⟨body, rest⟩
            · have hunf : tokenizeF (f + 1) ('<' :: d :: ds)
                  = tokenizeF f (d :: ds) := by
                rw [tokenizeF_tag_noslash f (d :: ds) hns, htb]
              have hlen : (d :: ds).length ≤ f := by
                simp only [List.length_cons] at hl ⊢
                omega
              obtain ⟨pre, tail, e1, e2, e3, e4⟩ := ih (d :: ds) hlen
              obtain ⟨pre2, tail2, g1, g2, g3, g4⟩ :=
                decomp_cons_gap (d :: ds) pre tail e1 e3 e4
              exact ⟨pre2, tail2, g1, by rw [g2, e2, hunf], g3, g4⟩
            · obtain ⟨hdec, hbne⟩ := tagBody_decomp (d :: ds) body rest htb
              have hunf : tokenizeF (f + 1) ('<' :: d :: ds)
                  = ('<' :: body) :: tokenizeF f rest := by
                rw [tokenizeF_tag_noslash f (d :: ds) hns, htb]
              have hrl : rest.length ≤ f := by
                have hlens := congrArg List.length hdec
                have hb1 : 1 ≤ body.length := by
                  cases body with
                  | nil => exact absurd rfl hbne
                  | cons b bs => simp
                simp only [List.length_append, List.length_cons] at hlens
                simp only [List.length_cons] at hl
                omega
              obtain ⟨pre, tail, e1, e2, e3, e4⟩ := ih rest hrl
              refine ⟨([], '<' :: body) :: pre, tail, ?_, ?_, ?_, e4⟩
              · simp only [List.map_cons, List.flatten_cons, List.nil_append,
                  List.cons_append, List.append_assoc]
                rw [hdec, e1]
              · rw [hunf]
                simp only [List.map_cons]
                rw [e2]
              · intro y hy
                rcases List.mem_cons.mp hy with h | h
                · subst h; intro ch hch; simp at hch
                · exact e3 y h
      · have hcp : ((c : Char) != '<') = true := by simpa using hc
        have hdrop_eq : (c :: cs).dropWhile (fun x => x != '<')
            = cs.dropWhile (fun x => x != '<') := by
          rw [List.dropWhile_cons, if_pos hcp]
        have hrl : ((c :: cs).dropWhile (fun x => x != '<')).length ≤ f := by
          rw [hdrop_eq]
          have h1 : (cs.dropWhile (fun x => x != '<')).length ≤ cs.length :=
            length_dropWhile_le _ cs
          simp only [List.length_cons] at hl
          omega
        obtain ⟨pre, tail, e1, e2, e3, e4⟩ := ih _ hrl
        refine ⟨([], (c :: cs).takeWhile (fun x => x != '<')) :: pre, tail,
          ?_, ?_, ?_, e4⟩
        · simp only [List.map_cons, List.flatten_cons, List.nil_append,
            List.append_assoc]
          rw [← e1, List.takeWhile_append_dropWhile]
        · rw [tokenizeF_text f c cs hc]
          simp only [List.map_cons]
          rw [e2]
        · intro y hy
          rcases List.mem_cons.mp hy with h | h
          · subst h; intro ch hch; simp at hch
          · exact e3 y h

/-- C10: for every source string, the source decomposes as its matched tokens
interleaved with gap characters, where every gap character is a `<` that
starts no match of the pattern, and every fragment is synthetic markup plus
exactly the matched tokens — so a character belonging to no match is never
appended to any fragment; in particular the non-empty source `"<"` yields no
fragments for any positive `max_len`, and `"a<"` yields `["a"]` (the trailing
unmatched `<` is dropped). -/
theorem C10_unmatched_chars_dropped :
    (∀ (s : String) (m : Int), 0 < m →
      ∃ (pre : List (List Char × List Char)) (tailGap : List Char)
        (cuts : List (String × List String × String)),
        s.data = (pre.map (fun x => x.1 ++ x.2)).flatten ++ tailGap ∧
        pre.map (fun x => x.2) = tokenize s.data ∧
        (∀ x ∈ pre, ∀ c ∈ x.1, c = '<') ∧
        (∀ c ∈ tailGap, c = '<') ∧
        split_message s m = cuts.map renderCut ∧
        (cuts.map (fun x => x.2.1)).flatten = tokens s ∧
        (∀ x ∈ cuts, GoodCut x)) ∧
    (∀ max_len : Int, 0 < max_len → split_message "<" max_len = []) ∧
    (∀ max_len : Int, 0 < max_len → split_message "a<" max_len = ["a"]) := by
  refine ⟨?_, fun m _ => rfl, fun m hm => ?_⟩
  · intro s m _
    obtain ⟨pre, tail, e1, e2, e3, e4⟩ :=
      tokenizeF_decomp s.data.length s.data (le_refl _)
    obtain ⟨cuts, f1, f2, f3⟩ := split_message_partition s m
    exact ⟨pre, tail, cuts, e1, e2, e3, e4, f1, f2, f3⟩
  · have ht : tokens "a<" = ["a"] := by decide
    rw [split_message_eq, ht, runSplit_cons]
    have hval : (initState.currentLength : Int) + ("a" : String).length
        + (rebuild_close_tags (get_open_tags initState.parser.openTags)).length
        = 1 := by
      decide
    have hcond : ¬ ((initState.currentLength : Int) + ("a" : String).length
        + (rebuild_close_tags (get_open_tags initState.parser.openTags)).length
          > m) := by
      rw [hval]; omega
    rw [splitStep_append m initState "a" hcond]
    have hct : rebuild_close_tags (get_open_tags initState.parser.openTags)
        = "" := rfl
    simp [runSplit, joinParts, hct, String.append_empty]

/-- C10 witness: the universal part applied at source `"a<"` with
`max_len = 1`, plus the two instances at `max_len = 1`. -/
theorem C10_witness :
    (0 : Int) < 1 ∧
    (∃ (pre : List (List Char × List Char)) (tailGap : List Char)
        (cuts : List (String × List String × String)),
        ("a<" : String).data = (pre.map (fun x => x.1 ++ x.2)).flatten ++ tailGap ∧
        pre.map (fun x => x.2) = tokenize ("a<" : String).data ∧
        (∀ x ∈ pre, ∀ c ∈ x.1, c = '<') ∧
        (∀ c ∈ tailGap, c = '<') ∧
        split_message "a<" 1 = cuts.map renderCut ∧
        (cuts.map (fun x => x.2.1)).flatten = tokens "a<" ∧
        (∀ x ∈ cuts, GoodCut x)) ∧
    split_message "<" 1 = [] ∧ split_message "a<" 1 = ["a"] :=
  ⟨by decide, C10_unmatched_chars_dropped.1 "a<" 1 (by decide),
    C10_unmatched_chars_dropped.2.1 1 (by decide),
    C10_unmatched_chars_dropped.2.2 1 (by decide)⟩

end MsgSplit
